import Mathlib

/-!
Verification of the tracker-scrape reference scripts and of the bencode
decoder/encoder core they motivate.

Part 1 embeds the URL derivation and query-parameter encoding performed by
`manual-scrape.py` and `manual-scrape-better.py` (strings as `List Char`,
byte strings as `List Nat` of byte values).

Part 2 embeds the regular-expression statistics extractor of
`manual-scrape.py`.

Part 3 embeds the bencode value tree, encoder, decoder and accessor layer.
The scripts delegate decoding to an external library, so these definitions
are modelled from the specification text of the repository.
-/

/-! ## Part 1: scrape-URL derivation and info-hash encoding -/

/-- The pattern `/announce` as a character list. -/
def announcePat : List Char := ['/', 'a', 'n', 'n', 'o', 'u', 'n', 'c', 'e']

/-- The replacement `/scrape` as a character list. -/
def scrapeRep : List Char := ['/', 's', 'c', 'r', 'a', 'p', 'e']

/-- Does the nine-character pattern `/announce` start at the head of the
list? -/
def annStartsAt (s : List Char) : Bool := decide (s.take 9 = announcePat)

/-- Python `'/announce' in url`: substring containment test. -/
def containsAnnounce : List Char → Bool
  | [] => false
  | c :: rest => annStartsAt (c :: rest) || containsAnnounce rest

/-- Python `url.replace('/announce', '/scrape')`: replaces every
non-overlapping occurrence, scanning left to right (a match consumes its
nine characters; otherwise one character is emitted and the scan moves
on). -/
def replaceAnnounce : List Char → List Char
  | [] => []
  | c1 :: c2 :: c3 :: c4 :: c5 :: c6 :: c7 :: c8 :: c9 :: rest =>
      if [c1, c2, c3, c4, c5, c6, c7, c8, c9] = announcePat
      then scrapeRep ++ replaceAnnounce rest
      else c1 :: replaceAnnounce (c2 :: c3 :: c4 :: c5 :: c6 :: c7 :: c8 :: c9 :: rest)
  | c :: rest => c :: replaceAnnounce rest

/-- Python `url.rstrip('/')`: strip trailing slashes. -/
def rstripSlash (s : List Char) : List Char :=
  (s.reverse.dropWhile (fun c => c = '/')).reverse

/-- The scrape-URL derivation shared by both scripts
(`manual-scrape.py` lines 24-28, `manual-scrape-better.py` lines 22-25):
if the substring `/announce` occurs anywhere in the tracker URL, apply
`str.replace('/announce', '/scrape')`; otherwise append `/scrape` to the
URL with trailing slashes stripped. -/
def deriveScrapeUrl (url : List Char) : List Char :=
  if containsAnnounce url then replaceAnnounce url
  else rstripSlash url ++ scrapeRep

/-- The path segment `announce`. -/
def announceSeg : List Char := ['a', 'n', 'n', 'o', 'u', 'n', 'c', 'e']

/-- The path segment `scrape`. -/
def scrapeSeg : List Char := ['s', 'c', 'r', 'a', 'p', 'e']

/-- Split a character list at every `/`. -/
def splitSlashAux : List Char → List Char → List (List Char)
  | [], acc => [acc.reverse]
  | '/' :: rest, acc => acc.reverse :: splitSlashAux rest []
  | c :: rest, acc => splitSlashAux rest (c :: acc)

/-- Join segments with `/` separators. -/
def joinSlash : List (List Char) → List Char
  | [] => []
  | [s] => s
  | s :: ss => s ++ '/' :: joinSlash ss

/-- Replace the first segment equal to `announce` in a segment list. -/
def replaceFirstAnnSeg : List (List Char) → List (List Char)
  | [] => []
  | s :: ss => if s = announceSeg then scrapeSeg :: ss else s :: replaceFirstAnnSeg ss

/-- Modelled from the spec: "the derivation of the scrape URL from an
announce URL (replace the last `/announce` path segment with `/scrape`,
or append `/scrape` if no such segment exists)".  Splits the URL into
`/`-separated segments, replaces the last segment equal to `announce`
with `scrape` if one exists, and otherwise appends `/scrape`. -/
def specScrapeUrl (url : List Char) : List Char :=
  let segs := splitSlashAux url []
  if segs.contains announceSeg then
    joinSlash (replaceFirstAnnSeg segs.reverse).reverse
  else url ++ scrapeRep

/-- `noAnnStartIn left rest = true` when no occurrence of `/announce` in
`left ++ rest` begins at a position inside `left`. -/
def noAnnStartIn : List Char → List Char → Bool
  | [], _ => true
  | c :: cs, rest => !annStartsAt (c :: (cs ++ rest)) && noAnnStartIn cs rest

/-! ## Part 1b: percent-encoding of the info hash -/

/-- Hex-digit value of an ASCII byte, as in `bytes.fromhex`. -/
def hexVal (c : Nat) : Option Nat :=
  if 48 ≤ c ∧ c ≤ 57 then some (c - 48)
  else if 65 ≤ c ∧ c ≤ 70 then some (c - 55)
  else if 97 ≤ c ∧ c ≤ 102 then some (c - 87)
  else none

/-- Is the ASCII byte a hex digit? -/
def isHexDigitByte (c : Nat) : Bool :=
  (48 ≤ c && c ≤ 57) || (65 ≤ c && c ≤ 70) || (97 ≤ c && c ≤ 102)

/-- Python `bytes.fromhex`: pair up hex digits into byte values. -/
def bytesFromHex : List Nat → Option (List Nat)
  | [] => some []
  | c1 :: c2 :: rest => do
      let a ← hexVal c1
      let b ← hexVal c2
      let r ← bytesFromHex rest
      pure ((a * 16 + b) :: r)
  | [_] => none

/-- The characters `urllib.parse` never percent-encodes: ASCII letters,
digits, and `_`, `.`, `~`, `-`. -/
def isSafeByte (b : Nat) : Bool :=
  (65 ≤ b && b ≤ 90) || (97 ≤ b && b ≤ 122) || (48 ≤ b && b ≤ 57) ||
    b == 95 || b == 46 || b == 126 || b == 45

/-- Upper-case hex digit for a value below 16. -/
def hexUpper (n : Nat) : Nat := if n < 10 then 48 + n else 55 + n

/-- Percent-encode one byte (unless safe), as `urllib.parse.quote` with
`safe=''` does. -/
def quoteByte (b : Nat) : List Nat :=
  if isSafeByte b then [b] else [37, hexUpper (b / 16), hexUpper (b % 16)]

/-- `urllib.parse.quote(bs, safe='')` on a byte sequence. -/
def pyQuote (bs : List Nat) : List Nat := (bs.map quoteByte).flatten

/-- One byte under `urllib.parse.quote_plus`: space becomes `+`, everything
else as in `quoteByte`. -/
def quotePlusByte (b : Nat) : List Nat := if b == 32 then [43] else quoteByte b

/-- `urllib.parse.quote_plus`, the encoder `urllib.parse.urlencode` (and so
`requests`) applies to each query-parameter value. -/
def pyQuotePlus (bs : List Nat) : List Nat := (bs.map quotePlusByte).flatten

/-- `hex_to_url_encoded` of `manual-scrape.py` lines 15-18: convert the
40-char hex hash to 20 raw bytes and percent-encode them with
`urllib.parse.quote(..., safe='')`. -/
def hex_to_url_encoded (h : List Nat) : Option (List Nat) :=
  (bytesFromHex h).map pyQuote

/-- The `info_hash` query-parameter value sent by `manual-scrape.py`: the
already-percent-encoded string of `hex_to_url_encoded` is handed to the
HTTP client, which percent-encodes it again. -/
def paramValueManual (h : List Nat) : Option (List Nat) :=
  (hex_to_url_encoded h).map pyQuotePlus

/-- The `info_hash` query-parameter value sent by `manual-scrape-better.py`:
the 20 raw bytes are handed directly to the HTTP client's parameter
encoder. -/
def paramValueBetter (h : List Nat) : Option (List Nat) :=
  (bytesFromHex h).map pyQuotePlus

/-- Plain percent-decoding: `%XX` becomes the byte with hex value `XX`,
every other byte stands for itself. -/
def percentDecode : List Nat → Option (List Nat)
  | [] => some []
  | c :: rest =>
    if c = 37 then
      match rest with
      | h1 :: h2 :: rest2 => do
          let a ← hexVal h1
          let b ← hexVal h2
          let r ← percentDecode rest2
          pure ((a * 16 + b) :: r)
      | _ => none
    else do
      let r ← percentDecode rest
      pure (c :: r)

/-- ASCII bytes of a string, for writing concrete inputs. -/
def strBytes (s : String) : List Nat := s.toList.map Char.toNat

/-! ## Part 2: the regular-expression extractor of manual-scrape.py -/

/-- Is the byte an ASCII decimal digit? -/
def isDigit (b : Nat) : Bool := 48 ≤ b && b ≤ 57

/-- Decimal value of a digit run. -/
def digitsVal (ds : List Nat) : Nat := ds.foldl (fun a d => a * 10 + (d - 48)) 0

/-- Match `(\d+)e` at the head of the list, returning the number. -/
def readNumThenE (s : List Nat) : Option Nat :=
  let ds := s.takeWhile isDigit
  match ds, s.dropWhile isDigit with
  | _ :: _, 101 :: _ => some (digitsVal ds)
  | _, _ => none

/-- Try the pattern `<lit>(\d+)e` at the head of the list. -/
def tryPatAt (lit : List Nat) (s : List Nat) : Option Nat :=
  if lit.isPrefixOf s then readNumThenE (s.drop lit.length) else none

/-- `re.search` for the pattern `<lit>(\d+)e`: leftmost match wins. -/
def searchPat (lit : List Nat) : List Nat → Option Nat
  | [] => none
  | b :: bs =>
    match tryPatAt lit (b :: bs) with
    | some n => some n
    | none => searchPat lit bs

/-- The literal `8:completei`. -/
def completeLit : List Nat := strBytes "8:completei"

/-- The literal `10:incompletei`. -/
def incompleteLit : List Nat := strBytes "10:incompletei"

/-- The literal `10:downloadedi`. -/
def downloadedLit : List Nat := strBytes "10:downloadedi"

/-- `re.search(b'8:completei(\d+)e', content)` of manual-scrape.py line 48. -/
def searchComplete (content : List Nat) : Option Nat := searchPat completeLit content

/-- `re.search(b'10:incompletei(\d+)e', content)` of manual-scrape.py line 49. -/
def searchIncomplete (content : List Nat) : Option Nat := searchPat incompleteLit content

/-- `re.search(b'10:downloadedi(\d+)e', content)` of manual-scrape.py line 50. -/
def searchDownloaded (content : List Nat) : Option Nat := searchPat downloadedLit content

/-- The three statistics a scrape reports. -/
structure ScrapeStats where
  seeders : Int
  leechers : Int
  downloads : Int
deriving DecidableEq

/-- The pattern-matching extractor of manual-scrape.py lines 48-65: a
statistics dictionary is produced only when the complete or the incomplete
pattern matched, each missing number defaulting to zero; otherwise the
response is reported as unparseable (`None`). -/
def regexExtract (content : List Nat) : Option ScrapeStats :=
  match searchComplete content, searchIncomplete content with
  | none, none => none
  | c, i =>
      some ⟨((c.getD 0 : Nat) : Int), ((i.getD 0 : Nat) : Int),
        (((searchDownloaded content).getD 0 : Nat) : Int)⟩

/-! ## Part 3: the bencode core, modelled from the spec -/

/-- Modelled from the spec: "BencodeValue — a tagged union over four
variants": `Integer`, `ByteString` (a byte sequence), `List` (order
significant) and `Dictionary` (byte-string keys with their values, in
iteration order). -/
inductive Bencode : Type where
  | int (i : Int)
  | str (s : List Nat)
  | list (xs : List Bencode)
  | dict (ps : List (List Nat × Bencode))

/-- Modelled from the spec: the error taxonomy of the decoder.
`truncatedInput` is the spec's `TruncatedInputError` (buffer ended
mid-value), `badToken` its `SyntaxError` (malformed token), and
`structureError` its `StructureError` (nesting depth exceeded or
duplicate dictionary key).  Each carries the byte offset at which the
failure was detected. -/
inductive DecodeError : Type where
  | truncatedInput (off : Nat)
  | badToken (off : Nat)
  | structureError (off : Nat)
deriving DecidableEq

/-- Decimal ASCII digits of a natural number, most significant first,
with fuel for structural recursion (any fuel above the digit count
gives the digits). -/
def natDigitsAux : Nat → Nat → List Nat
  | 0, _ => []
  | fuel + 1, n => if n < 10 then [48 + n] else natDigitsAux fuel (n / 10) ++ [48 + n % 10]

/-- Decimal ASCII digits of a natural number, most significant first. -/
def natDigits (n : Nat) : List Nat := natDigitsAux (n + 1) n

/-- Modelled from the spec: integers serialize as `i<decimal>e` with no
leading zeros, no positive sign, `i0e` for zero. -/
def encInt (i : Int) : List Nat :=
  if i < 0 then 105 :: 45 :: (natDigits i.natAbs ++ [101])
  else 105 :: (natDigits i.toNat ++ [101])

/-- Modelled from the spec: byte strings serialize as `<len>:<raw bytes>`. -/
def encStr (s : List Nat) : List Nat := natDigits s.length ++ 58 :: s

mutual

/-- Serialize a value tree, emitting dictionary pairs in the order they
are held.  The spec's encoder is `encode`, which first canonicalizes
dictionary order with `sortTree`. -/
def encodeRaw : Bencode → List Nat
  | .int i => encInt i
  | .str s => encStr s
  | .list xs => 108 :: (encList xs ++ [101])
  | .dict ps => 100 :: (encPairs ps ++ [101])

/-- Serialize the items of a list value, in order. -/
def encList : List Bencode → List Nat
  | [] => []
  | x :: xs => encodeRaw x ++ encList xs

/-- Serialize dictionary pairs: each key as a byte string, then its value. -/
def encPairs : List (List Nat × Bencode) → List Nat
  | [] => []
  | (k, v) :: ps => encStr k ++ (encodeRaw v ++ encPairs ps)

end

/-- Byte-lexicographic strict order on byte strings. -/
def lexLt : List Nat → List Nat → Bool
  | [], [] => false
  | [], _ :: _ => true
  | _ :: _, [] => false
  | a :: as, b :: bs => a < b || (a == b && lexLt as bs)

/-- Byte-lexicographic order, allowing equality. -/
def lexLe (a b : List Nat) : Bool := lexLt a b || a == b

/-- Insert a pair into a key-sorted pair list. -/
def insertPair (p : List Nat × Bencode) :
    List (List Nat × Bencode) → List (List Nat × Bencode)
  | [] => [p]
  | q :: qs => if lexLe p.1 q.1 then p :: q :: qs else q :: insertPair p qs

/-- Insertion sort of dictionary pairs by byte-lexicographic key order. -/
def sortPairs : List (List Nat × Bencode) → List (List Nat × Bencode)
  | [] => []
  | p :: ps => insertPair p (sortPairs ps)

mutual

/-- Canonicalize a value tree: sort every dictionary's pairs (at every
nesting level) into byte-lexicographic key order. -/
def sortTree : Bencode → Bencode
  | .int i => .int i
  | .str s => .str s
  | .list xs => .list (sortTreeList xs)
  | .dict ps => .dict (sortPairs (sortTreePairs ps))

/-- Canonicalize every item of a list value. -/
def sortTreeList : List Bencode → List Bencode
  | [] => []
  | x :: xs => sortTree x :: sortTreeList xs

/-- Canonicalize every value of a pair list. -/
def sortTreePairs : List (List Nat × Bencode) → List (List Nat × Bencode)
  | [] => []
  | (k, v) :: ps => (k, sortTree v) :: sortTreePairs ps

end

/-- Modelled from the spec: `encode(BencodeValue) -> bytes`, total, with
dictionary members "emitted in byte-lexicographic key order regardless of
the order the caller constructed them in". -/
def encode (v : Bencode) : List Nat := encodeRaw (sortTree v)

/-- All keys strictly less than `k`, pairwise. -/
def allKeysLt (k : List Nat) : List (List Nat) → Bool
  | [] => true
  | k' :: ks => lexLt k k' && allKeysLt k ks

/-- Keys pairwise in strictly increasing byte-lexicographic order. -/
def keysStrictSorted : List (List Nat) → Bool
  | [] => true
  | k :: ks => allKeysLt k ks && keysStrictSorted ks

mutual

/-- Well-formedness of a value tree: every dictionary's keys are unique
and in strictly increasing byte-lexicographic order (the spec's
canonical-form invariant), at every nesting level. -/
def wfB : Bencode → Bool
  | .int _ => true
  | .str _ => true
  | .list xs => wfL xs
  | .dict ps => keysStrictSorted (ps.map Prod.fst) && wfP ps

/-- Well-formedness of every item of a list value. -/
def wfL : List Bencode → Bool
  | [] => true
  | x :: xs => wfB x && wfL xs

/-- Well-formedness of every value of a pair list. -/
def wfP : List (List Nat × Bencode) → Bool
  | [] => true
  | (_, v) :: ps => wfB v && wfP ps

end

mutual

/-- Nesting depth of a value: containers count one plus their deepest
member, leaves count zero. -/
def vdepth : Bencode → Nat
  | .int _ => 0
  | .str _ => 0
  | .list xs => 1 + depthL xs
  | .dict ps => 1 + depthP ps

/-- Deepest nesting depth among list items. -/
def depthL : List Bencode → Nat
  | [] => 0
  | x :: xs => max (vdepth x) (depthL xs)

/-- Deepest nesting depth among pair-list values. -/
def depthP : List (List Nat × Bencode) → Nat
  | [] => 0
  | (_, v) :: ps => max (vdepth v) (depthP ps)

end

/-- A digit run is acceptable when nonempty and without a leading zero
(unless it is the single digit `0`), per the spec's strict grammar. -/
def goodDigits : List Nat → Bool
  | [] => false
  | [_] => true
  | d :: _ :: _ => d ≠ 48

/-- Parse a strict decimal natural number at the head of the buffer:
`pos` is the offset of the buffer's head in the whole input, and the
result carries the value, the new offset and the unconsumed tail. -/
def parseNat (pos : Nat) (bs : List Nat) :
    Except DecodeError (Nat × Nat × List Nat) :=
  if (bs.takeWhile isDigit).isEmpty then
    match bs with
    | [] => .error (.truncatedInput pos)
    | _ :: _ => .error (.badToken pos)
  else if goodDigits (bs.takeWhile isDigit) then
    .ok (digitsVal (bs.takeWhile isDigit), pos + (bs.takeWhile isDigit).length,
      bs.dropWhile isDigit)
  else .error (.badToken pos)

/-- Parse the body of an integer (everything after the leading `i`):
an optional `-`, digits without leading zeros, then `e`; `-0` and a
lone `-` are malformed. -/
def parseIntBody (pos : Nat) (bs : List Nat) :
    Except DecodeError (Int × Nat × List Nat) :=
  match bs with
  | 45 :: rest => do
      let (n, pos1, rem1) ← parseNat (pos + 1) rest
      if n = 0 then .error (.badToken pos)
      else
        match rem1 with
        | 101 :: rem2 => .ok (-(n : Int), pos1 + 1, rem2)
        | [] => .error (.truncatedInput pos1)
        | _ :: _ => .error (.badToken pos1)
  | _ => do
      let (n, pos1, rem1) ← parseNat pos bs
      match rem1 with
      | 101 :: rem2 => .ok ((n : Int), pos1 + 1, rem2)
      | [] => .error (.truncatedInput pos1)
      | _ :: _ => .error (.badToken pos1)

/-- Parse a byte string `<len>:<bytes>` at the head of the buffer.  A
length that would read past the end of the buffer is a truncation, not
a syntax failure. -/
def parseStrBody (pos : Nat) (bs : List Nat) :
    Except DecodeError (List Nat × Nat × List Nat) := do
  let (len, pos1, rem1) ← parseNat pos bs
  match rem1 with
  | 58 :: rem2 =>
      if rem2.length < len then .error (.truncatedInput (pos1 + 1 + rem2.length))
      else .ok (rem2.take len, pos1 + 1 + len, rem2.drop len)
  | [] => .error (.truncatedInput pos1)
  | _ :: _ => .error (.badToken pos1)

mutual

/-- Modelled from the spec: the recursive-descent decoder.  One byte of
lookahead selects the production (`i` integer, `l` list, `d` dictionary,
digit byte string, anything else malformed); `depth` is the remaining
allowed container nesting, decremented at each container and exhausted
with a `structureError`; `fuel` only bounds the recursion for Lean and
is given generously by `decode_all`. -/
def decodeV : Nat → Nat → Nat → List Nat →
    Except DecodeError (Bencode × Nat × List Nat)
  | 0, _, pos, _ => .error (.structureError pos)
  | _ + 1, _, pos, [] => .error (.truncatedInput pos)
  | fuel + 1, depth, pos, b :: bs =>
    if b = 105 then do
      let (i, p, r) ← parseIntBody (pos + 1) bs
      .ok (.int i, p, r)
    else if b = 108 then
      if depth = 0 then .error (.structureError pos)
      else do
        let (xs, p, r) ← decodeItems fuel (depth - 1) (pos + 1) bs
        .ok (.list xs, p, r)
    else if b = 100 then
      if depth = 0 then .error (.structureError pos)
      else do
        let (ps, p, r) ← decodePairs fuel (depth - 1) (pos + 1) bs []
        .ok (.dict ps, p, r)
    else if isDigit b then do
      let (s, p, r) ← parseStrBody pos (b :: bs)
      .ok (.str s, p, r)
    else .error (.badToken pos)
termination_by structural fuel _ _ _ => fuel

/-- Decode list items until the terminating `e`. -/
def decodeItems : Nat → Nat → Nat → List Nat →
    Except DecodeError (List Bencode × Nat × List Nat)
  | 0, _, pos, _ => .error (.structureError pos)
  | _ + 1, _, pos, [] => .error (.truncatedInput pos)
  | fuel + 1, depth, pos, b :: bs =>
    if b = 101 then .ok ([], pos + 1, bs)
    else do
      let (v, p, r) ← decodeV fuel depth pos (b :: bs)
      let (vs, p2, r2) ← decodeItems fuel depth p r
      .ok (v :: vs, p2, r2)
termination_by structural fuel _ _ _ => fuel

/-- Decode dictionary pairs until the terminating `e`.  `seen` carries
the keys already decoded: a repeated key is a `structureError` (the
spec rejects duplicated keys); keys out of sorted order are accepted,
in wire order. -/
def decodePairs : Nat → Nat → Nat → List Nat → List (List Nat) →
    Except DecodeError (List (List Nat × Bencode) × Nat × List Nat)
  | 0, _, pos, _, _ => .error (.structureError pos)
  | _ + 1, _, pos, [], _ => .error (.truncatedInput pos)
  | fuel + 1, depth, pos, b :: bs, seen =>
    if b = 101 then .ok ([], pos + 1, bs)
    else if isDigit b then do
      let (k, p, r) ← parseStrBody pos (b :: bs)
      if seen.contains k then .error (.structureError pos)
      else do
        let (v, p2, r2) ← decodeV fuel depth p r
        let (ps, p3, r3) ← decodePairs fuel depth p2 r2 (k :: seen)
        .ok ((k, v) :: ps, p3, r3)
    else .error (.badToken pos)
termination_by structural fuel _ _ _ _ => fuel

end

/-- Modelled from the spec: `decode_all(bytes) -> Result<BencodeValue,
DecodeError>` — decode one complete value and fail if bytes remain, with
a configurable maximum nesting depth.  The fuel `2 * length + 2` strictly
dominates the recursion (two calls per consumed byte plus the top call),
so the fuel bound itself is never the limiting resource. -/
def decode_all (maxDepth : Nat) (bs : List Nat) : Except DecodeError Bencode :=
  match decodeV (2 * bs.length + 2) maxDepth 0 bs with
  | .error e => .error e
  | .ok (v, pos, rest) =>
      match rest with
      | [] => .ok v
      | _ :: _ => .error (.badToken pos)

/-! ### Accessor layer -/

/-- First value bound to a key in a pair list (wire order). -/
def dictGet (ps : List (List Nat × Bencode)) (k : List Nat) : Option Bencode :=
  match ps with
  | [] => none
  | (k', v) :: ps' => if k' = k then some v else dictGet ps' k

/-- Modelled from the spec: extract an integer field of a statistics
entry, "defaulting any absent field to zero"; a present field of the
wrong variant is a field-not-present outcome (`none`). -/
def getIntField (entry : List (List Nat × Bencode)) (k : List Nat) : Option Int :=
  match dictGet entry k with
  | none => some 0
  | some (.int i) => some i
  | some _ => none

/-- The key `files`. -/
def filesKey : List Nat := strBytes "files"

/-- The key `complete`. -/
def completeKey : List Nat := strBytes "complete"

/-- The key `incomplete`. -/
def incompleteKey : List Nat := strBytes "incomplete"

/-- The key `downloaded`. -/
def downloadedKey : List Nat := strBytes "downloaded"

/-- The pair list of a dictionary value; a wrong variant is a
field-not-present outcome. -/
def asDictPairs : Bencode → Option (List (List Nat × Bencode))
  | .dict ps => some ps
  | _ => none

/-- Look up the `files` dictionary of a decoded scrape response. -/
def lookupFiles (v : Bencode) : Option (List (List Nat × Bencode)) := do
  let ps ← asDictPairs v
  let fv ← dictGet ps filesKey
  asDictPairs fv

/-- Look up the statistics entry of one queried identifier inside the
`files` dictionary. -/
def lookupEntry (fs : List (List Nat × Bencode)) (infoHash : List Nat) :
    Option (List (List Nat × Bencode)) := do
  let ev ← dictGet fs infoHash
  asDictPairs ev

/-- Modelled from the spec's accessor layer: in a decoded scrape
response, look up `files`, then the queried 20-byte identifier, then
the `complete`, `incomplete` and `downloaded` integers (absent fields
default to zero).  `none` is the spec's `FieldMissing`: a missing key
or a wrong variant at any step. -/
def scrapeStats (v : Bencode) (infoHash : List Nat) : Option ScrapeStats := do
  let fs ← lookupFiles v
  let entry ← lookupEntry fs infoHash
  let s ← getIntField entry completeKey
  let l ← getIntField entry incompleteKey
  let d ← getIntField entry downloadedKey
  pure ⟨s, l, d⟩

/-- The failure outcomes of a whole scrape lookup: either the response
was not decodable (carrying the decoder's error) or the response decoded
but the requested field was not present. -/
inductive ScrapeError : Type where
  | decodeFailed (e : DecodeError)
  | fieldMissing
deriving DecidableEq

/-- Decode a scrape response body and extract the statistics for one
info hash, with the two failure kinds kept distinct. -/
def scrapeFromBytes (maxDepth : Nat) (body : List Nat) (infoHash : List Nat) :
    Except ScrapeError ScrapeStats :=
  match decode_all maxDepth body with
  | .error e => .error (.decodeFailed e)
  | .ok v =>
    match scrapeStats v infoHash with
    | none => .error .fieldMissing
    | some st => .ok st

/-! ## Theorems -/

/-- The repository's info hash, as the ASCII bytes of its 40 hex characters. -/
def repoHash : List Nat := strBytes "ba0e267579fa62981795dcc059fb61e1af5ca429"

/-- C3: the two scripts do not encode the content identifier identically —
for the repository's own 40-hex-character info hash, the `info_hash`
query-parameter value of manual-scrape.py (quote, then the HTTP client's
encoder) differs from the value of manual-scrape-better.py (raw bytes
handed to the HTTP client's encoder). -/
theorem info_hash_param_values_differ :
    repoHash.length = 40 ∧ repoHash.all isHexDigitByte = true ∧
    paramValueManual repoHash ≠ paramValueBetter repoHash := by
  refine ⟨rfl, rfl, ?_⟩
  decide

/-- A well-formed bencoded scrape response in which the text
`8:completei5e` occurs only inside a byte-string value: a dictionary
whose single key `spam` holds the byte string `8:completei5e`. -/
def c2Body : List Nat := strBytes "d4:spam13:8:completei5ee"

/-- C2: the response decodes (it is well-formed bencode) to a dictionary
holding `8:completei5e` only as text inside a byte-string value, yet the
regex extractor of manual-scrape.py reports seeders=5 for it, while the
recursive-descent decoder with the typed accessors reports the field as
not present for every queried identifier. -/
theorem regex_extractor_misreads_string_value :
    decode_all 64 c2Body =
      .ok (.dict [(strBytes "spam", .str (strBytes "8:completei5e"))]) ∧
    regexExtract c2Body = some ⟨5, 0, 0⟩ ∧
    ∀ h, scrapeFromBytes 64 c2Body h = .error .fieldMissing := by
  exact ⟨rfl, rfl, fun h => rfl⟩

/-- C10: if a response matches the downloaded pattern but neither the
complete nor the incomplete pattern, manual-scrape.py's extractor returns
`None` and the download count is discarded; a statistics dictionary is
returned only when at least one of the two patterns matched. -/
theorem downloaded_alone_is_discarded :
    (∀ content n, searchDownloaded content = some n →
      searchComplete content = none → searchIncomplete content = none →
      regexExtract content = none) ∧
    (∀ content st, regexExtract content = some st →
      searchComplete content ≠ none ∨ searchIncomplete content ≠ none) := by
  constructor
  · intro content n _ hc hi
    unfold regexExtract
    rw [hc, hi]
  · intro content st h
    unfold regexExtract at h
    rcases hc : searchComplete content with _ | c
    · rcases hi : searchIncomplete content with _ | i
      · rw [hc, hi] at h
        exact absurd h (by simp)
      · exact Or.inr (by simp [hi])
    · exact Or.inl (by simp [hc])

/-- Witness for C10 at the concrete response `10:downloadedi7e`. -/
theorem downloaded_alone_is_discarded_witness :
    searchDownloaded (strBytes "10:downloadedi7e") = some 7 ∧
    searchComplete (strBytes "10:downloadedi7e") = none ∧
    searchIncomplete (strBytes "10:downloadedi7e") = none ∧
    regexExtract (strBytes "10:downloadedi7e") = none :=
  ⟨rfl, rfl, rfl, downloaded_alone_is_discarded.1 _ 7 rfl rfl rfl⟩

/-- C7: decoding the truncated input `4:sp` fails with the truncation
error (at the offset where the buffer ended), not with the syntax-failure
error, for the recommended depth bound. -/
theorem truncated_input_reports_truncation :
    decode_all 64 (strBytes "4:sp") = .error (.truncatedInput 4) ∧
    ∀ off, decode_all 64 (strBytes "4:sp") ≠ .error (.badToken off) := by
  refine ⟨rfl, fun off h => ?_⟩
  rw [show decode_all 64 (strBytes "4:sp") = .error (.truncatedInput 4) from rfl] at h
  exact absurd h (by simp)

/-- A character that does not begin an occurrence of `/announce` passes
through `replaceAnnounce` unchanged. -/
theorem replaceAnnounce_cons (c : Char) (t : List Char)
    (h : annStartsAt (c :: t) = false) :
    replaceAnnounce (c :: t) = c :: replaceAnnounce t := by
  have h9 : (c :: t).take 9 ≠ announcePat := by
    intro hh
    rw [annStartsAt, hh] at h
    simp at h
  rw [replaceAnnounce.eq_def]
  split
  · rename_i heq
    simp at heq
  · rename_i c1 c2 c3 c4 c5 c6 c7 c8 c9 rest heq
    rw [if_neg (fun hcond => h9 (by rw [heq]; exact hcond))]
    injection heq with h1 h2
    rw [h1, h2]
  · rename_i hne heq
    injection heq with h1 h2
    rw [h1, h2]

/-- A character that does not begin an occurrence of `/announce` does not
affect containment. -/
theorem containsAnnounce_cons (c : Char) (t : List Char)
    (h : annStartsAt (c :: t) = false) :
    containsAnnounce (c :: t) = containsAnnounce t := by
  show (annStartsAt (c :: t) || containsAnnounce t) = containsAnnounce t
  rw [h]
  simp

/-- When no occurrence of `/announce` starts inside `left`, replacement
distributes over the append. -/
theorem replaceAnnounce_append (left rest : List Char)
    (h : noAnnStartIn left rest = true) :
    replaceAnnounce (left ++ rest) = left ++ replaceAnnounce rest := by
  induction left with
  | nil => rfl
  | cons c cs ih =>
      rw [noAnnStartIn] at h
      rw [Bool.and_eq_true] at h
      obtain ⟨h1, h2⟩ := h
      rw [List.cons_append, replaceAnnounce_cons c (cs ++ rest) (by
        rcases ha : annStartsAt (c :: (cs ++ rest)) with _ | _
        · rfl
        · rw [ha] at h1; simp at h1), ih h2, List.cons_append]

/-- When no occurrence of `/announce` starts inside `left`, containment
reduces to containment in `rest`. -/
theorem containsAnnounce_append (left rest : List Char)
    (h : noAnnStartIn left rest = true) :
    containsAnnounce (left ++ rest) = containsAnnounce rest := by
  induction left with
  | nil => rfl
  | cons c cs ih =>
      rw [noAnnStartIn] at h
      rw [Bool.and_eq_true] at h
      obtain ⟨h1, h2⟩ := h
      rw [List.cons_append, containsAnnounce_cons c (cs ++ rest) (by
        rcases ha : annStartsAt (c :: (cs ++ rest)) with _ | _
        · rfl
        · rw [ha] at h1; simp at h1), ih h2]

/-- Counterexample to C1 as stated: in the URL
`http://t/announce/announce` the code rewrites both `/announce`
occurrences (giving `http://t/scrape/scrape`), while replacing only the
last `/announce` path segment would give `http://t/announce/scrape`. -/
theorem scrape_url_counterexample :
    deriveScrapeUrl "http://t/announce/announce".toList =
      "http://t/scrape/scrape".toList ∧
    specScrapeUrl "http://t/announce/announce".toList =
      "http://t/announce/scrape".toList ∧
    "http://t/scrape/scrape".toList ≠ "http://t/announce/scrape".toList := by
  refine ⟨by decide, by decide, by decide⟩

/-- The literal `/announcements`. -/
def announcementsPat : List Char :=
  ['/', 'a', 'n', 'n', 'o', 'u', 'n', 'c', 'e', 'm', 'e', 'n', 't', 's']

/-- The literal `/scrapements`. -/
def scrapementsPat : List Char :=
  ['/', 's', 'c', 'r', 'a', 'p', 'e', 'm', 'e', 'n', 't', 's']

/-- C1 (amended): the code derives the scrape URL by replacing every
occurrence of the substring `/announce` with `/scrape` when at least one
occurs — occurrences in earlier path segments and prefixes of longer
segments such as `/announcements` are rewritten too — and by appending
`/scrape` to the URL with trailing slashes stripped when none occurs. -/
theorem scrape_url_amended :
    (∀ url, containsAnnounce url = false →
      deriveScrapeUrl url = rstripSlash url ++ scrapeRep) ∧
    (∀ left, noAnnStartIn left (announcePat ++ announcePat) = true →
      deriveScrapeUrl (left ++ (announcePat ++ announcePat)) =
        left ++ (scrapeRep ++ scrapeRep)) ∧
    (∀ left, noAnnStartIn left announcementsPat = true →
      deriveScrapeUrl (left ++ announcementsPat) = left ++ scrapementsPat) := by
  refine ⟨?_, ?_, ?_⟩
  · intro url h
    unfold deriveScrapeUrl
    rw [h]
    rfl
  · intro left h
    unfold deriveScrapeUrl
    rw [containsAnnounce_append left _ h, replaceAnnounce_append left _ h]
    rfl
  · intro left h
    unfold deriveScrapeUrl
    rw [containsAnnounce_append left _ h, replaceAnnounce_append left _ h]
    rfl

/-- Witness for C1 (amended) at two concrete tracker URLs. -/
theorem scrape_url_amended_witness :
    (containsAnnounce "udp://x".toList = false ∧
      deriveScrapeUrl "udp://x".toList = rstripSlash "udp://x".toList ++ scrapeRep) ∧
    (noAnnStartIn "http://t".toList (announcePat ++ announcePat) = true ∧
      deriveScrapeUrl ("http://t".toList ++ (announcePat ++ announcePat)) =
        "http://t".toList ++ (scrapeRep ++ scrapeRep)) :=
  ⟨⟨by decide, scrape_url_amended.1 _ (by decide)⟩,
   ⟨by decide, scrape_url_amended.2.1 _ (by decide)⟩⟩

/-- `hexVal` inverts `hexUpper` on values below 16. -/
theorem hexVal_hexUpper (x : Nat) (hx : x < 16) : hexVal (hexUpper x) = some x := by
  unfold hexVal hexUpper
  split_ifs <;> first
    | (simp only [Option.some.injEq]; omega)
    | omega

/-- Unfolding of `percentDecode` at a non-percent head byte. -/
theorem percentDecode_cons_ne (c : Nat) (rest : List Nat) (h : c ≠ 37) :
    percentDecode (c :: rest) =
      Option.bind (percentDecode rest) (fun r => some (c :: r)) := by
  rw [percentDecode.eq_def]
  split
  · rename_i heq
    exact absurd heq (by simp)
  · rename_i c2 r2 heq
    injection heq with e1 e2
    subst e1
    subst e2
    rw [if_neg h]
    rfl

/-- Unfolding of `percentDecode` at a percent escape. -/
theorem percentDecode_percent (h1 h2 : Nat) (rest : List Nat) :
    percentDecode (37 :: h1 :: h2 :: rest) =
      Option.bind (hexVal h1) (fun a => Option.bind (hexVal h2) (fun b =>
        Option.bind (percentDecode rest) (fun r => some ((a * 16 + b) :: r)))) := rfl

/-- A safe byte is never the percent sign. -/
theorem isSafeByte_ne_percent (b : Nat) (h : isSafeByte b = true) : b ≠ 37 := by
  intro hb
  subst hb
  simp [isSafeByte] at h

/-- Percent-decoding inverts `urllib.parse.quote` on byte values. -/
theorem percentDecode_pyQuote : ∀ bs : List Nat, (∀ b ∈ bs, b < 256) →
    percentDecode (pyQuote bs) = some bs := by
  intro bs
  induction bs with
  | nil => intro _; rfl
  | cons b rest ih =>
      intro hlt
      have hb : b < 256 := hlt b (by simp)
      have hrest := ih (fun x hx => hlt x (by simp [hx]))
      show percentDecode (quoteByte b ++ pyQuote rest) = some (b :: rest)
      by_cases hsafe : isSafeByte b = true
      · rw [show quoteByte b = [b] from by rw [quoteByte, if_pos hsafe]]
        show percentDecode (b :: pyQuote rest) = _
        rw [percentDecode_cons_ne b _ (isSafeByte_ne_percent b hsafe), hrest]
        rfl
      · rw [show quoteByte b = [37, hexUpper (b / 16), hexUpper (b % 16)] from by
          rw [quoteByte, if_neg hsafe]]
        show percentDecode (37 :: hexUpper (b / 16) :: hexUpper (b % 16) :: pyQuote rest) = _
        rw [percentDecode_percent]
        rw [hexVal_hexUpper (b / 16) (by omega), hexVal_hexUpper (b % 16) (by omega)]
        rw [hrest]
        show some ((b / 16 * 16 + b % 16) :: rest) = some (b :: rest)
        congr 2
        omega

/-- A hex digit has a value, and it is below 16. -/
theorem hexVal_of_isHexDigitByte (c : Nat) (h : isHexDigitByte c = true) :
    ∃ a, hexVal c = some a ∧ a < 16 := by
  unfold isHexDigitByte at h
  unfold hexVal
  split_ifs with h1 h2 h3
  · exact ⟨c - 48, rfl, by omega⟩
  · exact ⟨c - 55, rfl, by omega⟩
  · exact ⟨c - 87, rfl, by omega⟩
  · simp only [Bool.or_eq_true, Bool.and_eq_true, decide_eq_true_eq] at h
    omega

/-- `bytes.fromhex` succeeds on an even-length hex string and yields half
as many bytes, each below 256. -/
theorem bytesFromHex_ok : ∀ h : List Nat, (∀ c ∈ h, isHexDigitByte c = true) →
    h.length % 2 = 0 →
    ∃ bs, bytesFromHex h = some bs ∧ bs.length = h.length / 2 ∧ ∀ b ∈ bs, b < 256
  | [], _, _ => ⟨[], rfl, rfl, by simp⟩
  | [c], _, hlen => absurd hlen (by simp)
  | c1 :: c2 :: rest, hhex, hlen => by
      obtain ⟨bs, hb1, hb2, hb3⟩ := bytesFromHex_ok rest
        (fun c hc => hhex c (by simp [hc]))
        (by have h2 := hlen; simp at h2; omega)
      obtain ⟨a1, ha1, ha1lt⟩ := hexVal_of_isHexDigitByte c1 (hhex c1 (by simp))
      obtain ⟨a2, ha2, ha2lt⟩ := hexVal_of_isHexDigitByte c2 (hhex c2 (by simp))
      refine ⟨(a1 * 16 + a2) :: bs, ?_, ?_, ?_⟩
      · rw [bytesFromHex]
        rw [ha1, ha2, hb1]
        rfl
      · simp [hb2]
        omega
      · intro b hb
        rcases List.mem_cons.mp hb with h1 | h2
        · omega
        · exact hb3 b h2

/-- C9: for every 40-hex-character string, percent-decoding the output of
`hex_to_url_encoded` recovers exactly the 20 raw bytes of
`bytes.fromhex`. -/
theorem hex_to_url_encoded_roundtrip (h : List Nat) (hlen : h.length = 40)
    (hhex : ∀ c ∈ h, isHexDigitByte c = true) :
    ∃ enc bs, hex_to_url_encoded h = some enc ∧ bytesFromHex h = some bs ∧
      bs.length = 20 ∧ percentDecode enc = some bs := by
  obtain ⟨bs, h1, h2, h3⟩ := bytesFromHex_ok h hhex (by omega)
  exact ⟨pyQuote bs, bs, by simp [hex_to_url_encoded, h1], h1, by omega,
    percentDecode_pyQuote bs h3⟩

/-- Witness for C9 at the repository's info hash. -/
theorem hex_to_url_encoded_roundtrip_witness :
    repoHash.length = 40 ∧
    ∃ enc bs, hex_to_url_encoded repoHash = some enc ∧
      bytesFromHex repoHash = some bs ∧ bs.length = 20 ∧
      percentDecode enc = some bs :=
  ⟨rfl, hex_to_url_encoded_roundtrip repoHash rfl (by decide)⟩

/-- A run of `l` bytes longer than the remaining allowed depth drives the
decoder into the depth-exhaustion failure, at the offset where the bound
was crossed. -/
theorem decodeV_deep_list : ∀ d fuel n pos rest, d < n → 2 * d + 2 ≤ fuel →
    decodeV fuel d pos (List.replicate n 108 ++ rest) =
      .error (.structureError (pos + d)) := by
  intro d
  induction d with
  | zero =>
      intro fuel n pos rest hn hfuel
      obtain ⟨f, rfl⟩ : ∃ f, fuel = f + 1 := ⟨fuel - 1, by omega⟩
      obtain ⟨m, rfl⟩ : ∃ m, n = m + 1 := ⟨n - 1, by omega⟩
      rw [List.replicate_succ, List.cons_append]
      rw [decodeV]
      norm_num
  | succ d ih =>
      intro fuel n pos rest hn hfuel
      obtain ⟨f, rfl⟩ : ∃ f, fuel = f + 1 := ⟨fuel - 1, by omega⟩
      obtain ⟨g, rfl⟩ : ∃ g, f = g + 1 := ⟨f - 1, by omega⟩
      obtain ⟨m, rfl⟩ : ∃ m, n = m + 1 := ⟨n - 1, by omega⟩
      rw [List.replicate_succ, List.cons_append]
      rw [decodeV]
      norm_num
      obtain ⟨m2, rfl⟩ : ∃ m2, m = m2 + 1 := ⟨m - 1, by omega⟩
      rw [List.replicate_succ, List.cons_append]
      rw [decodeItems]
      norm_num
      have e : pos + (d + 1) = (pos + 1) + d := by omega
      rw [e]
      rw [← List.cons_append, ← List.replicate_succ]
      rw [ih g (m2 + 1) (pos + 1) rest (by omega) (by omega)]
      rfl

/-- C8: for every input whose `l`-nesting exceeds the configured maximum
depth — however large — the decoder returns the structure error (and, being
a total function, terminates). -/
theorem deep_nesting_structure_error :
    ∀ maxDepth n rest, maxDepth < n →
    decode_all maxDepth (List.replicate n 108 ++ rest) =
      .error (.structureError maxDepth) := by
  intro md n rest h
  unfold decode_all
  have hd := decodeV_deep_list md (2 * (List.replicate n 108 ++ rest).length + 2) n 0 rest h
    (by simp; omega)
  rw [hd]
  simp

/-- Witness for C8: eleven nested `l` with a depth bound of two. -/
theorem deep_nesting_structure_error_witness :
    decode_all 2 (List.replicate 11 108 ++ [101]) = .error (.structureError 2) :=
  deep_nesting_structure_error 2 11 [101] (by omega)

/-- Unfolding of `lookupFiles` at a dictionary value. -/
theorem lookupFiles_dict (ps : List (List Nat × Bencode)) :
    lookupFiles (.dict ps) = Option.bind (dictGet ps filesKey) asDictPairs := rfl

/-- Unfolding of `lookupEntry`. -/
theorem lookupEntry_eq (fs : List (List Nat × Bencode)) (ih : List Nat) :
    lookupEntry fs ih = Option.bind (dictGet fs ih) asDictPairs := rfl

/-- Unfolding of `scrapeStats` as a chain of binds. -/
theorem scrapeStats_eq (v : Bencode) (ih : List Nat) :
    scrapeStats v ih = Option.bind (lookupFiles v) (fun fs =>
      Option.bind (lookupEntry fs ih) (fun entry =>
        Option.bind (getIntField entry completeKey) (fun s =>
          Option.bind (getIntField entry incompleteKey) (fun l =>
            Option.bind (getIntField entry downloadedKey) (fun d =>
              some ⟨s, l, d⟩))))) := rfl

/-- C4: every failing lookup step of the accessor layer (neither a
dictionary at the top, `files` missing, `files` of the wrong variant,
or the queried identifier missing) yields the field-not-present outcome,
and a whole lookup keeps that outcome distinct from every
malformed-response outcome. -/
theorem failure_kinds_distinct :
    (∀ maxDepth body ih e, decode_all maxDepth body = .error e →
      scrapeFromBytes maxDepth body ih = .error (.decodeFailed e)) ∧
    (∀ maxDepth body ih v, decode_all maxDepth body = .ok v →
      scrapeStats v ih = none →
      scrapeFromBytes maxDepth body ih = .error .fieldMissing) ∧
    (∀ ih i, scrapeStats (.int i) ih = none) ∧
    (∀ ps ih, dictGet ps filesKey = none → scrapeStats (.dict ps) ih = none) ∧
    (∀ ps ih v, dictGet ps filesKey = some v → (∀ fs, v ≠ .dict fs) →
      scrapeStats (.dict ps) ih = none) ∧
    (∀ ps fs ih, dictGet ps filesKey = some (.dict fs) → dictGet fs ih = none →
      scrapeStats (.dict ps) ih = none) ∧
    (∀ e, (ScrapeError.fieldMissing : ScrapeError) ≠ .decodeFailed e) := by
  refine ⟨?_, ?_, ?_, ?_, ?_, ?_, ?_⟩
  · intro maxDepth body ih e h
    unfold scrapeFromBytes
    rw [h]
  · intro maxDepth body ih v h1 h2
    unfold scrapeFromBytes
    rw [h1]
    show (match scrapeStats v ih with
      | none => Except.error ScrapeError.fieldMissing
      | some st => Except.ok st) = _
    rw [h2]
  · intro ih i
    rfl
  · intro ps ih h
    rw [scrapeStats_eq, lookupFiles_dict, h]
    rfl
  · intro ps ih v h1 h2
    rw [scrapeStats_eq, lookupFiles_dict, h1]
    have hv : asDictPairs v = none := by
      cases v with
      | int i => rfl
      | str s2 => rfl
      | list xs => rfl
      | dict fs => exact absurd rfl (h2 fs)
    simp only [Option.some_bind]
    rw [hv]
    rfl
  · intro ps fs ih h1 h2
    rw [scrapeStats_eq, lookupFiles_dict, h1]
    simp only [Option.some_bind, asDictPairs]
    rw [lookupEntry_eq, h2]
    rfl
  · intro e h
    exact ScrapeError.noConfusion h

/-- Witness for C4: a truncated body gives the decode-failure outcome, an
empty dictionary gives the field-missing outcome, and the two differ. -/
theorem failure_kinds_distinct_witness :
    scrapeFromBytes 64 (strBytes "4:sp") [1] =
      .error (.decodeFailed (.truncatedInput 4)) ∧
    scrapeFromBytes 64 (strBytes "de") [1] = .error .fieldMissing ∧
    (ScrapeError.fieldMissing : ScrapeError) ≠
      .decodeFailed (.truncatedInput 4) :=
  ⟨failure_kinds_distinct.1 64 (strBytes "4:sp") [1] (.truncatedInput 4) rfl,
   failure_kinds_distinct.2.1 64 (strBytes "de") [1] (.dict []) rfl rfl,
   failure_kinds_distinct.2.2.2.2.2.2 (.truncatedInput 4)⟩

/-- C5: when the decoded response's `files` dictionary has an entry for
the queried identifier, the accessor layer returns the `complete`,
`incomplete` and `downloaded` integers as seeders, leechers and downloads,
and an absent field reads as zero. -/
theorem accessor_extracts_counters :
    (∀ entry k, dictGet entry k = none → getIntField entry k = some 0) ∧
    (∀ ps fs entry ih s l d,
      dictGet ps filesKey = some (.dict fs) →
      dictGet fs ih = some (.dict entry) →
      getIntField entry completeKey = some s →
      getIntField entry incompleteKey = some l →
      getIntField entry downloadedKey = some d →
      scrapeStats (.dict ps) ih = some ⟨s, l, d⟩) := by
  constructor
  · intro entry k hk
    unfold getIntField
    rw [hk]
  · intro ps fs entry ih s l d h1 h2 h3 h4 h5
    rw [scrapeStats_eq, lookupFiles_dict, h1]
    simp only [Option.some_bind, asDictPairs]
    rw [lookupEntry_eq, h2]
    simp only [Option.some_bind, asDictPairs]
    rw [h3]
    simp only [Option.some_bind]
    rw [h4]
    simp only [Option.some_bind]
    rw [h5]
    rfl

/-- Witness for C5 at the spec's scrape-shape example (identifier of 20
`A` bytes, complete 5, incomplete 2, downloaded 100), both directly on the
tree and through the decoder, plus the absent-field default. -/
theorem accessor_extracts_counters_witness :
    scrapeStats (.dict [(filesKey, .dict [(List.replicate 20 65,
        .dict [(completeKey, .int 5), (incompleteKey, .int 2),
          (downloadedKey, .int 100)])])]) (List.replicate 20 65) =
      some ⟨5, 2, 100⟩ ∧
    getIntField [] completeKey = some 0 ∧
    scrapeFromBytes 64
      (strBytes "d5:filesd20:AAAAAAAAAAAAAAAAAAAAd8:completei5e10:incompletei2e10:downloadedi100eeee")
      (List.replicate 20 65) = .ok ⟨5, 2, 100⟩ :=
  ⟨accessor_extracts_counters.2 _ _ _ _ 5 2 100 rfl rfl rfl rfl rfl,
   accessor_extracts_counters.1 [] completeKey rfl, rfl⟩

/-- `digitsVal` peels its last digit. -/
theorem digitsVal_append_one (ds : List Nat) (d : Nat) :
    digitsVal (ds ++ [d]) = digitsVal ds * 10 + (d - 48) := by
  unfold digitsVal
  rw [List.foldl_append]
  rfl

/-- With enough fuel, `natDigitsAux` yields a nonempty digit run whose
value is the encoded number. -/
theorem natDigitsAux_facts : ∀ fuel n, n < fuel →
    (∃ d t, natDigitsAux fuel n = d :: t) ∧
    (∀ d ∈ natDigitsAux fuel n, isDigit d = true) ∧
    digitsVal (natDigitsAux fuel n) = n := by
  intro fuel
  induction fuel with
  | zero => intro n h; omega
  | succ f ih =>
      intro n h
      rw [natDigitsAux]
      by_cases h10 : n < 10
      · rw [if_pos h10]
        refine ⟨⟨48 + n, [], rfl⟩, ?_, ?_⟩
        · intro d hd
          simp at hd
          subst hd
          simp [isDigit]
          omega
        · unfold digitsVal
          simp
      · rw [if_neg h10]
        obtain ⟨hne, hdig, hval⟩ := ih (n / 10) (by omega)
        refine ⟨?_, ?_, ?_⟩
        · obtain ⟨d, t, ht⟩ := hne
          exact ⟨d, t ++ [48 + n % 10], by rw [ht]; rfl⟩
        · intro d hd
          rcases List.mem_append.mp hd with h1 | h2
          · exact hdig d h1
          · simp at h2
            subst h2
            simp [isDigit]
            omega
        · rw [digitsVal_append_one, hval]
          omega

/-- With enough fuel and a positive number, the leading digit is not `0`. -/
theorem natDigitsAux_head_ne_zero : ∀ fuel n, n < fuel → 1 ≤ n →
    ∃ d t, natDigitsAux fuel n = d :: t ∧ d ≠ 48 := by
  intro fuel
  induction fuel with
  | zero => intro n h; omega
  | succ f ih =>
      intro n h h1
      rw [natDigitsAux]
      by_cases h10 : n < 10
      · rw [if_pos h10]
        exact ⟨48 + n, [], rfl, by omega⟩
      · rw [if_neg h10]
        obtain ⟨d, t, ht, hd⟩ := ih (n / 10) (by omega) (by omega)
        exact ⟨d, t ++ [48 + n % 10], by rw [ht]; rfl, hd⟩

/-- The decimal digits of `n`: nonempty, all digits, valued `n`. -/
theorem natDigits_facts (n : Nat) :
    (∃ d t, natDigits n = d :: t) ∧ (∀ d ∈ natDigits n, isDigit d = true) ∧
    digitsVal (natDigits n) = n := natDigitsAux_facts (n + 1) n (by omega)

/-- The decimal digits of `n` pass the strict no-leading-zero check. -/
theorem goodDigits_natDigits (n : Nat) : goodDigits (natDigits n) = true := by
  by_cases h1 : n = 0
  · subst h1
    rfl
  · obtain ⟨d, t, ht, hd⟩ := natDigitsAux_head_ne_zero (n + 1) n (by omega) (by omega)
    show goodDigits (natDigitsAux (n + 1) n) = true
    rw [ht]
    cases t with
    | nil => rfl
    | cons t1 ts =>
        show goodDigits (d :: t1 :: ts) = true
        simp [goodDigits]
        exact hd

/-- `takeWhile`/`dropWhile` split a digit run off a buffer whose next
byte is not a digit. -/
theorem takeWhile_append_digits (ds : List Nat) (b : Nat) (t : List Nat)
    (hds : ∀ d ∈ ds, isDigit d = true) (hb : isDigit b = false) :
    (ds ++ b :: t).takeWhile isDigit = ds ∧
    (ds ++ b :: t).dropWhile isDigit = b :: t := by
  induction ds with
  | nil =>
      constructor
      · show (b :: t).takeWhile isDigit = []
        rw [List.takeWhile_cons, hb]
        simp
      · show (b :: t).dropWhile isDigit = b :: t
        rw [List.dropWhile_cons, hb]
        simp
  | cons d ds ih =>
      have hd := hds d (by simp)
      obtain ⟨ih1, ih2⟩ := ih (fun x hx => hds x (by simp [hx]))
      constructor
      · rw [List.cons_append, List.takeWhile_cons, hd]
        simp [ih1]
      · rw [List.cons_append, List.dropWhile_cons, hd]
        simp [ih2]

/-- `parseNat` consumes exactly the digits of `n` and returns `n`. -/
theorem parseNat_natDigits (pos n b : Nat) (t : List Nat) (hb : isDigit b = false) :
    parseNat pos (natDigits n ++ b :: t) =
      .ok (n, pos + (natDigits n).length, b :: t) := by
  obtain ⟨⟨d, t2, heq⟩, hdig, hval⟩ := natDigits_facts n
  obtain ⟨tw, dw⟩ := takeWhile_append_digits (natDigits n) b t hdig hb
  unfold parseNat
  rw [tw, dw]
  rw [show (natDigits n).isEmpty = false from by rw [heq]; rfl]
  rw [if_neg (by simp)]
  rw [if_pos (goodDigits_natDigits n)]
  rw [hval]

/-- `parseIntBody` on the canonical encoding of a non-negative integer. -/
theorem parseIntBody_nonneg (pos n : Nat) (rest : List Nat) :
    parseIntBody pos (natDigits n ++ 101 :: rest) =
      .ok ((n : Int), pos + (natDigits n).length + 1, rest) := by
  obtain ⟨⟨d, t2, heq⟩, hdig, _⟩ := natDigits_facts n
  rw [parseIntBody.eq_def]
  split
  · rename_i r2 heq2
    rw [heq, List.cons_append] at heq2
    injection heq2 with e1 e2
    have := hdig d (by rw [heq]; simp)
    subst e1
    simp [isDigit] at this
  · rw [parseNat_natDigits pos n 101 rest (by decide)]
    rfl

/-- `parseIntBody` on the canonical encoding of a negative integer. -/
theorem parseIntBody_negative (pos n : Nat) (rest : List Nat) (hn : n ≠ 0) :
    parseIntBody pos (45 :: (natDigits n ++ 101 :: rest)) =
      .ok (-(n : Int), pos + 1 + (natDigits n).length + 1, rest) := by
  rw [parseIntBody.eq_def]
  split
  · rename_i r2 heq2
    injection heq2 with e1 e2
    subst e2
    rw [parseNat_natDigits (pos + 1) n 101 rest (by decide)]
    show (if n = 0 then Except.error (DecodeError.badToken pos)
      else Except.ok (-(n : Int), pos + 1 + (natDigits n).length + 1, rest)) = _
    rw [if_neg hn]
  · rename_i hne
    exact absurd rfl (hne (natDigits n ++ 101 :: rest))

/-- `parseStrBody` on the canonical encoding of a byte string. -/
theorem parseStrBody_encStr (pos : Nat) (s rest : List Nat) :
    parseStrBody pos (encStr s ++ rest) = .ok (s, pos + (encStr s).length, rest) := by
  unfold encStr
  rw [List.append_assoc, List.cons_append]
  unfold parseStrBody
  rw [parseNat_natDigits pos s.length 58 (s ++ rest) (by decide)]
  show (if (s ++ rest).length < s.length then _ else _ : Except DecodeError _) = _
  rw [if_neg (by simp)]
  rw [List.take_left, List.drop_left]
  simp only [Except.ok.injEq, Prod.mk.injEq, List.length_append, List.length_cons,
    true_and, and_true]
  omega

/-- `Except` bind on a success. -/
theorem except_bind_ok {e a b : Type} (x : a) (f : a → Except e b) :
    (Except.ok x : Except e a) >>= f = f x := rfl

/-- Every encoded value starts with a byte, and never with `e`. -/
theorem encodeRaw_head (v : Bencode) :
    ∃ b t, encodeRaw v = b :: t ∧ b ≠ 101 := by
  cases v with
  | int i =>
      show ∃ b t, encInt i = b :: t ∧ b ≠ 101
      unfold encInt
      by_cases hneg : i < 0
      · rw [if_pos hneg]
        exact ⟨105, _, rfl, by omega⟩
      · rw [if_neg hneg]
        exact ⟨105, _, rfl, by omega⟩
  | str s =>
      obtain ⟨⟨d, t2, heq⟩, hdig, _⟩ := natDigits_facts s.length
      have hd : isDigit d = true := hdig d (by rw [heq]; simp)
      have hdb : 48 ≤ d ∧ d ≤ 57 := by simpa [isDigit] using hd
      exact ⟨d, t2 ++ 58 :: s, by show encStr s = _; unfold encStr; rw [heq]; simp,
        by omega⟩
  | list xs => exact ⟨108, _, rfl, by omega⟩
  | dict ps => exact ⟨100, _, rfl, by omega⟩

/-- Encoded values are nonempty. -/
theorem encodeRaw_length_pos (v : Bencode) : 1 ≤ (encodeRaw v).length := by
  obtain ⟨b, t, heq, _⟩ := encodeRaw_head v
  rw [heq]
  simp

/-- Byte strings never precede themselves lexicographically. -/
theorem lexLt_irrefl : ∀ a : List Nat, lexLt a a = false := by
  intro a
  induction a with
  | nil => rfl
  | cons x xs ih =>
      show (x < x || (x == x && lexLt xs xs)) = false
      rw [ih]
      simp

/-- A key below everything in `seen` is not in `seen`. -/
theorem contains_eq_false_of_allLt (seen : List (List Nat)) (k : List Nat)
    (h : ∀ s ∈ seen, lexLt s k = true) : seen.contains k = false := by
  induction seen with
  | nil => rfl
  | cons s ss ih =>
      rw [List.contains_cons]
      rw [ih (fun x hx => h x (by simp [hx]))]
      have hs := h s (by simp)
      rcases hbeq : k == s with _ | _
      · simp
      · have he : k = s := by simpa using hbeq
        subst he
        rw [lexLt_irrefl] at hs
        exact absurd hs (by simp)

mutual

/-- Decoding an encoded well-formed value (with enough fuel and depth)
returns the value and the trailing bytes. -/
theorem decodeV_encodeRaw : ∀ v, wfB v = true → ∀ fuel depth pos rest,
    (encodeRaw v).length ≤ fuel → vdepth v ≤ depth →
    decodeV fuel depth pos (encodeRaw v ++ rest) =
      .ok (v, pos + (encodeRaw v).length, rest)
  | .int i => by
      intro hwf fuel depth pos rest hfuel hdepth
      obtain ⟨f, rfl⟩ : ∃ f, fuel = f + 1 :=
        ⟨fuel - 1, by have := encodeRaw_length_pos (.int i); omega⟩
      have hlen : (encodeRaw (Bencode.int i)).length =
          (encInt i).length := rfl
      show decodeV (f + 1) depth pos (encInt i ++ rest) =
        .ok (.int i, pos + (encodeRaw (Bencode.int i)).length, rest)
      rw [hlen]
      unfold encInt
      by_cases hneg : i < 0
      · rw [if_pos hneg]
        simp only [List.cons_append, List.append_assoc, List.singleton_append, List.nil_append]
        rw [decodeV]
        rw [if_pos rfl]
        rw [parseIntBody_negative (pos + 1) i.natAbs rest (by omega)]
        simp only [except_bind_ok]
        simp only [List.length_cons, List.length_append, List.length_singleton,
          List.length_nil, Except.ok.injEq, Prod.mk.injEq, Bencode.int.injEq,
          true_and, and_true]
        omega
      · rw [if_neg hneg]
        simp only [List.cons_append, List.append_assoc, List.singleton_append, List.nil_append]
        rw [decodeV]
        rw [if_pos rfl]
        rw [parseIntBody_nonneg (pos + 1) i.toNat rest]
        simp only [except_bind_ok]
        simp only [List.length_cons, List.length_append, List.length_singleton,
          List.length_nil, Except.ok.injEq, Prod.mk.injEq, Bencode.int.injEq,
          true_and, and_true]
        omega
  | .str s => by
      intro hwf fuel depth pos rest hfuel hdepth
      obtain ⟨⟨d, t2, heq⟩, hdig, _⟩ := natDigits_facts s.length
      have hd : isDigit d = true := hdig d (by rw [heq]; simp)
      have hdb : 48 ≤ d ∧ d ≤ 57 := by simpa [isDigit] using hd
      obtain ⟨f, rfl⟩ : ∃ f, fuel = f + 1 :=
        ⟨fuel - 1, by have := encodeRaw_length_pos (.str s); omega⟩
      show decodeV (f + 1) depth pos (encStr s ++ rest) =
        .ok (.str s, pos + (encStr s).length, rest)
      rw [show encStr s ++ rest = d :: (t2 ++ 58 :: (s ++ rest)) from by
        unfold encStr
        rw [heq]
        simp]
      rw [decodeV]
      rw [if_neg (by omega), if_neg (by omega), if_neg (by omega), if_pos hd]
      rw [show (d :: (t2 ++ 58 :: (s ++ rest)) : List Nat) = encStr s ++ rest from by
        unfold encStr
        rw [heq]
        simp]
      rw [parseStrBody_encStr pos s rest]
      simp only [except_bind_ok]
  | .list xs => by
      intro hwf fuel depth pos rest hfuel hdepth
      have hlen : (encodeRaw (Bencode.list xs)).length = (encList xs).length + 2 := by
        show (108 :: (encList xs ++ [101])).length = _
        simp
      have hdep : vdepth (Bencode.list xs) = 1 + depthL xs := rfl
      obtain ⟨f, rfl⟩ : ∃ f, fuel = f + 1 := ⟨fuel - 1, by omega⟩
      obtain ⟨dd, rfl⟩ : ∃ dd, depth = dd + 1 := ⟨depth - 1, by rw [hdep] at hdepth; omega⟩
      show decodeV (f + 1) (dd + 1) pos ((108 :: (encList xs ++ [101])) ++ rest) =
        .ok (.list xs, pos + (encodeRaw (Bencode.list xs)).length, rest)
      rw [List.cons_append, List.append_assoc, List.singleton_append]
      rw [decodeV]
      rw [if_neg (by omega), if_pos rfl, if_neg (by omega)]
      simp only [Nat.add_sub_cancel]
      rw [decodeItems_encList xs hwf f dd (pos + 1) rest (by rw [hlen] at hfuel; omega)
        (by rw [hdep] at hdepth; omega)]
      simp only [except_bind_ok]
      simp only [Except.ok.injEq, Prod.mk.injEq, hlen, true_and, and_true]
      omega
  | .dict ps => by
      intro hwf fuel depth pos rest hfuel hdepth
      have hwf2 : keysStrictSorted (ps.map Prod.fst) = true ∧ wfP ps = true := by
        have h2 : (keysStrictSorted (ps.map Prod.fst) && wfP ps) = true := hwf
        simpa using h2
      have hlen : (encodeRaw (Bencode.dict ps)).length = (encPairs ps).length + 2 := by
        show (100 :: (encPairs ps ++ [101])).length = _
        simp
      have hdep : vdepth (Bencode.dict ps) = 1 + depthP ps := rfl
      obtain ⟨f, rfl⟩ : ∃ f, fuel = f + 1 := ⟨fuel - 1, by omega⟩
      obtain ⟨dd, rfl⟩ : ∃ dd, depth = dd + 1 := ⟨depth - 1, by rw [hdep] at hdepth; omega⟩
      show decodeV (f + 1) (dd + 1) pos ((100 :: (encPairs ps ++ [101])) ++ rest) =
        .ok (.dict ps, pos + (encodeRaw (Bencode.dict ps)).length, rest)
      rw [List.cons_append, List.append_assoc, List.singleton_append]
      rw [decodeV]
      rw [if_neg (by omega), if_neg (by omega), if_pos rfl, if_neg (by omega)]
      simp only [Nat.add_sub_cancel]
      rw [decodePairs_encPairs ps hwf2.2 hwf2.1 [] (by simp) f dd (pos + 1) rest
        (by rw [hlen] at hfuel; omega) (by rw [hdep] at hdepth; omega)]
      simp only [except_bind_ok]
      simp only [Except.ok.injEq, Prod.mk.injEq, hlen, true_and, and_true]
      omega

/-- Decoding encoded list items followed by `e` returns the items. -/
theorem decodeItems_encList : ∀ xs, wfL xs = true → ∀ fuel depth pos rest,
    (encList xs).length + 1 ≤ fuel → depthL xs ≤ depth →
    decodeItems fuel depth pos (encList xs ++ 101 :: rest) =
      .ok (xs, pos + ((encList xs).length + 1), rest)
  | [] => by
      intro hwf fuel depth pos rest hfuel hdepth
      obtain ⟨f, rfl⟩ : ∃ f, fuel = f + 1 := ⟨fuel - 1, by omega⟩
      show decodeItems (f + 1) depth pos (101 :: rest) =
        .ok ([], pos + ((encList []).length + 1), rest)
      rw [decodeItems]
      rw [if_pos rfl]
      rfl
  | x :: xs => by
      intro hwf fuel depth pos rest hfuel hdepth
      have hwf2 : wfB x = true ∧ wfL xs = true := by
        have h2 : (wfB x && wfL xs) = true := hwf
        simpa using h2
      have hlen : (encList (x :: xs)).length =
          (encodeRaw x).length + (encList xs).length := by
        show (encodeRaw x ++ encList xs).length = _
        simp
      have hdep : depthL (x :: xs) = max (vdepth x) (depthL xs) := rfl
      have hex := encodeRaw_length_pos x
      obtain ⟨b, t2, heq, hb101⟩ := encodeRaw_head x
      obtain ⟨f, rfl⟩ : ∃ f, fuel = f + 1 := ⟨fuel - 1, by omega⟩
      show decodeItems (f + 1) depth pos ((encodeRaw x ++ encList xs) ++ 101 :: rest) =
        .ok (x :: xs, pos + ((encList (x :: xs)).length + 1), rest)
      rw [List.append_assoc]
      rw [show encodeRaw x ++ (encList xs ++ 101 :: rest) =
          b :: (t2 ++ (encList xs ++ 101 :: rest)) from by rw [heq]; simp]
      rw [decodeItems]
      rw [if_neg hb101]
      rw [show (b :: (t2 ++ (encList xs ++ 101 :: rest)) : List Nat) =
          encodeRaw x ++ (encList xs ++ 101 :: rest) from by rw [heq]; simp]
      rw [decodeV_encodeRaw x hwf2.1 f depth pos (encList xs ++ 101 :: rest)
        (by rw [hlen] at hfuel; omega) (by rw [hdep] at hdepth; omega)]
      simp only [except_bind_ok]
      rw [decodeItems_encList xs hwf2.2 f depth (pos + (encodeRaw x).length) rest
        (by rw [hlen] at hfuel; omega) (by rw [hdep] at hdepth; omega)]
      simp only [except_bind_ok]
      simp only [Except.ok.injEq, Prod.mk.injEq, hlen, true_and, and_true]
      omega

/-- Decoding encoded dictionary pairs followed by `e` returns the pairs,
when the keys are strictly sorted and every key already seen lies below
every remaining key. -/
theorem decodePairs_encPairs : ∀ ps, wfP ps = true →
    keysStrictSorted (ps.map Prod.fst) = true →
    ∀ seen, (∀ s ∈ seen, allKeysLt s (ps.map Prod.fst) = true) →
    ∀ fuel depth pos rest,
    (encPairs ps).length + 1 ≤ fuel → depthP ps ≤ depth →
    decodePairs fuel depth pos (encPairs ps ++ 101 :: rest) seen =
      .ok (ps, pos + ((encPairs ps).length + 1), rest)
  | [] => by
      intro hwf hsort seen hseen fuel depth pos rest hfuel hdepth
      obtain ⟨f, rfl⟩ : ∃ f, fuel = f + 1 := ⟨fuel - 1, by omega⟩
      show decodePairs (f + 1) depth pos (101 :: rest) seen =
        .ok ([], pos + ((encPairs []).length + 1), rest)
      rw [decodePairs]
      rw [if_pos rfl]
      rfl
  | (k, v) :: ps => by
      intro hwf hsort seen hseen fuel depth pos rest hfuel hdepth
      have hwf2 : wfB v = true ∧ wfP ps = true := by
        have h2 : (wfB v && wfP ps) = true := hwf
        simpa using h2
      have hsort2 : allKeysLt k (ps.map Prod.fst) = true ∧
          keysStrictSorted (ps.map Prod.fst) = true := by
        have h2 : (allKeysLt k (ps.map Prod.fst) &&
            keysStrictSorted (ps.map Prod.fst)) = true := hsort
        simpa using h2
      have hlen : (encPairs ((k, v) :: ps)).length =
          (encStr k).length + ((encodeRaw v).length + (encPairs ps).length) := by
        show (encStr k ++ (encodeRaw v ++ encPairs ps)).length = _
        simp
      have hdep : depthP ((k, v) :: ps) = max (vdepth v) (depthP ps) := rfl
      have hev := encodeRaw_length_pos v
      obtain ⟨⟨d, t2, heq⟩, hdig, _⟩ := natDigits_facts k.length
      have hd : isDigit d = true := hdig d (by rw [heq]; simp)
      have hdb : 48 ≤ d ∧ d ≤ 57 := by simpa [isDigit] using hd
      have hek : 1 ≤ (encStr k).length := by
        show 1 ≤ (natDigits k.length ++ 58 :: k).length
        simp
        omega
      obtain ⟨f, rfl⟩ : ∃ f, fuel = f + 1 := ⟨fuel - 1, by omega⟩
      show decodePairs (f + 1) depth pos
          ((encStr k ++ (encodeRaw v ++ encPairs ps)) ++ 101 :: rest) seen =
        .ok ((k, v) :: ps, pos + ((encPairs ((k, v) :: ps)).length + 1), rest)
      rw [List.append_assoc, List.append_assoc]
      rw [show encStr k ++ (encodeRaw v ++ (encPairs ps ++ 101 :: rest)) =
          d :: (t2 ++ 58 :: (k ++ (encodeRaw v ++ (encPairs ps ++ 101 :: rest))))
          from by unfold encStr; rw [heq]; simp]
      rw [decodePairs]
      rw [if_neg (by omega), if_pos hd]
      rw [show (d :: (t2 ++ 58 :: (k ++ (encodeRaw v ++ (encPairs ps ++ 101 :: rest))))
          : List Nat) = encStr k ++ (encodeRaw v ++ (encPairs ps ++ 101 :: rest))
          from by unfold encStr; rw [heq]; simp]
      rw [parseStrBody_encStr pos k (encodeRaw v ++ (encPairs ps ++ 101 :: rest))]
      simp only [except_bind_ok]
      rw [show seen.contains k = false from contains_eq_false_of_allLt seen k
        (fun s hs => by
          have h3 := hseen s hs
          have h4 : (lexLt s k && allKeysLt s (ps.map Prod.fst)) = true := h3
          have h5 : lexLt s k = true ∧ allKeysLt s (ps.map Prod.fst) = true := by
            simpa using h4
          exact h5.1)]
      rw [if_neg (by simp)]
      rw [decodeV_encodeRaw v hwf2.1 f depth (pos + (encStr k).length)
        (encPairs ps ++ 101 :: rest)
        (by rw [hlen] at hfuel; omega) (by rw [hdep] at hdepth; omega)]
      simp only [except_bind_ok]
      rw [decodePairs_encPairs ps hwf2.2 hsort2.2 (k :: seen)
        (fun s hs => by
          rcases List.mem_cons.mp hs with h5 | h5
          · subst h5
            exact hsort2.1
          · have h3 := hseen s h5
            have h4 : (lexLt s k && allKeysLt s (ps.map Prod.fst)) = true := h3
            have h6 : lexLt s k = true ∧ allKeysLt s (ps.map Prod.fst) = true := by
              simpa using h4
            exact h6.2)
        f depth (pos + (encStr k).length + (encodeRaw v).length) rest
        (by rw [hlen] at hfuel; omega) (by rw [hdep] at hdepth; omega)]
      simp only [except_bind_ok]
      simp only [Except.ok.injEq, Prod.mk.injEq, hlen, true_and, and_true]
      omega

end

/-- Inserting a pair whose key lies below every key of a list puts it in
front. -/
theorem insertPair_eq_cons (p : List Nat × Bencode) (qs : List (List Nat × Bencode))
    (h : allKeysLt p.1 (qs.map Prod.fst) = true) : insertPair p qs = p :: qs := by
  cases qs with
  | nil => rfl
  | cons q qs2 =>
      have h2 : lexLt p.1 q.1 = true ∧ allKeysLt p.1 (qs2.map Prod.fst) = true := by
        have h3 : (lexLt p.1 q.1 && allKeysLt p.1 (qs2.map Prod.fst)) = true := h
        simpa using h3
      show (if lexLe p.1 q.1 = true then p :: q :: qs2 else q :: insertPair p qs2) = _
      rw [if_pos (by unfold lexLe; rw [h2.1]; simp)]

/-- Sorting pairs whose keys are already strictly sorted changes nothing. -/
theorem sortPairs_eq_of_sorted : ∀ ps : List (List Nat × Bencode),
    keysStrictSorted (ps.map Prod.fst) = true → sortPairs ps = ps
  | [] => fun _ => rfl
  | p :: ps => fun h => by
      have h2 : allKeysLt p.1 (ps.map Prod.fst) = true ∧
          keysStrictSorted (ps.map Prod.fst) = true := by
        have h3 : (allKeysLt p.1 (ps.map Prod.fst) &&
            keysStrictSorted (ps.map Prod.fst)) = true := h
        simpa using h3
      show insertPair p (sortPairs ps) = p :: ps
      rw [sortPairs_eq_of_sorted ps h2.2]
      exact insertPair_eq_cons p ps h2.1

mutual

/-- Canonicalization fixes every well-formed tree. -/
theorem sortTree_wf : ∀ v, wfB v = true → sortTree v = v
  | .int _ => fun _ => rfl
  | .str _ => fun _ => rfl
  | .list xs => fun h => by
      show Bencode.list (sortTreeList xs) = Bencode.list xs
      rw [sortTreeList_wf xs h]
  | .dict ps => fun h => by
      have h2 : keysStrictSorted (ps.map Prod.fst) = true ∧ wfP ps = true := by
        have h3 : (keysStrictSorted (ps.map Prod.fst) && wfP ps) = true := h
        simpa using h3
      show Bencode.dict (sortPairs (sortTreePairs ps)) = Bencode.dict ps
      rw [sortTreePairs_wf ps h2.2]
      rw [sortPairs_eq_of_sorted ps h2.1]

/-- Canonicalization fixes well-formed list items. -/
theorem sortTreeList_wf : ∀ xs, wfL xs = true → sortTreeList xs = xs
  | [] => fun _ => rfl
  | x :: xs => fun h => by
      have h2 : wfB x = true ∧ wfL xs = true := by
        have h3 : (wfB x && wfL xs) = true := h
        simpa using h3
      show sortTree x :: sortTreeList xs = x :: xs
      rw [sortTree_wf x h2.1, sortTreeList_wf xs h2.2]

/-- Canonicalization fixes well-formed pair values. -/
theorem sortTreePairs_wf : ∀ ps, wfP ps = true → sortTreePairs ps = ps
  | [] => fun _ => rfl
  | (k, v) :: ps => fun h => by
      have h2 : wfB v = true ∧ wfP ps = true := by
        have h3 : (wfB v && wfP ps) = true := h
        simpa using h3
      show (k, sortTree v) :: sortTreePairs ps = (k, v) :: ps
      rw [sortTree_wf v h2.1, sortTreePairs_wf ps h2.2]

end

/-- The dictionary `{b: 1, a: 2}`: unique keys, out of sorted order. -/
def c6Bad : Bencode := .dict [([98], .int 1), ([97], .int 2)]

/-- Counterexample to C6 as stated: for the tree `c6Bad`, whose keys are
unique but unsorted, decoding the encoder's output yields the key-sorted
dictionary, not `c6Bad`; and for a depth bound below the tree's nesting
depth even `encode (.list [])` does not round-trip. -/
theorem roundtrip_counterexample :
    decode_all 64 (encode c6Bad) =
      .ok (.dict [([97], .int 2), ([98], .int 1)]) ∧
    Bencode.dict [([97], .int 2), ([98], .int 1)] ≠ c6Bad ∧
    decode_all 0 (encode (.list [])) = .error (.structureError 0) := by
  refine ⟨rfl, ?_, rfl⟩
  intro h
  have h2 := congrArg (fun w => match w with
    | Bencode.dict ((k, _) :: _) => k
    | _ => ([] : List Nat)) h
  simp [c6Bad] at h2

/-- C6 (amended): for every value tree whose dictionary keys are unique
and in strictly increasing byte-lexicographic order at every level, and
any configured maximum depth at least the tree's nesting depth, decoding
the encoder's output yields the tree again. -/
theorem roundtrip_amended : ∀ v maxDepth, wfB v = true → vdepth v ≤ maxDepth →
    decode_all maxDepth (encode v) = .ok v := by
  intro v md hwf hd
  unfold decode_all encode
  rw [sortTree_wf v hwf]
  have h1 := decodeV_encodeRaw v hwf (2 * (encodeRaw v).length + 2) md 0 []
    (by omega) hd
  rw [List.append_nil] at h1
  rw [h1]

/-- Witness for C6 (amended) at a two-key dictionary within depth 64. -/
theorem roundtrip_amended_witness :
    wfB (.dict [([97], .int 5), ([98], .str [120])]) = true ∧
    vdepth (.dict [([97], .int 5), ([98], .str [120])]) ≤ 64 ∧
    decode_all 64 (encode (.dict [([97], .int 5), ([98], .str [120])])) =
      .ok (.dict [([97], .int 5), ([98], .str [120])]) :=
  ⟨rfl, by decide, roundtrip_amended _ 64 rfl (by decide)⟩
